import Mathlib

/-!
Verification of the tee-time reservation acquisition core.

Shallow embedding of the pure/orchestration core of
`src/tee_time_reservations.py`:

* `to_minutes` — `"HH:MM"` parsing (`to_minutes`, line 37);
* `pick_slot` — the slot selector (line 76);
* the pure tail of `get_availability` — payload construction, capacity
  filtering and the stable sort by time-of-day (lines 42–73);
* `poll_for_slot` — the acquisition loop with deadline and exponential
  backoff (lines 136–178), modelled as a function of a trace of query
  outcomes with explicit rational time-stamps and a log of the sleeps and
  query starts it performs.

HTTP transport is external: a query either returns a list of raw records
(`QueryOutcome.success`) or raises a transient `requests.RequestException`
(`QueryOutcome.failure`); the time each call takes is part of the trace.
-/

set_option maxRecDepth 8000

namespace TeeTime

instance {ε α : Type} [DecidableEq ε] [DecidableEq α] : DecidableEq (Except ε α) := fun x y =>
  match x, y with
  | .ok a, .ok b =>
    if h : a = b then .isTrue (by rw [h]) else .isFalse fun hc => h (Except.ok.inj hc)
  | .error a, .error b =>
    if h : a = b then .isTrue (by rw [h]) else .isFalse fun hc => h (Except.error.inj hc)
  | .ok _, .error _ => .isFalse fun hc => Except.noConfusion hc
  | .error _, .ok _ => .isFalse fun hc => Except.noConfusion hc

/-- A raw availability record, as consumed by the script.  `Hora` is read with
`a["Hora"]` (assumed present), while `NumeroJugadoresMaximo` is read with
`x.get("NumeroJugadoresMaximo", 4)`, so it may be absent. -/
structure RawSlot where
  Fecha : String
  Hora : String
  Recorrido : String
  NumeroJugadoresMaximo : Option Int := none
deriving Repr, DecidableEq

/-- Python's `str.split(sep)` for a one-character separator, over the
character list: `"08:00"` ↦ `["08", "00"]`, `""` ↦ `[""]`. -/
def splitOnChar (c : Char) : List Char → List (List Char)
  | [] => [[]]
  | x :: xs =>
    match splitOnChar c xs with
    | [] => [[]]
    | r :: rs => if x = c then [] :: r :: rs else (x :: r) :: rs

/-- Python's `int(...)` restricted to plain decimal digit strings (the shape
an `"HH:MM"` field has); `none` models the `ValueError` on anything else. -/
def digitsToNat? (cs : List Char) : Option Nat :=
  match cs with
  | [] => none
  | _ =>
    cs.foldl
      (fun acc c =>
        match acc with
        | none => none
        | some n => if c.isDigit then some (10 * n + (c.toNat - 48)) else none)
      (some 0)

/-- `to_minutes` (line 37): `h, m = map(int, hhmm.split(":")); return 60*h + m`.
`none` models the `ValueError` Python raises on a malformed string. -/
def to_minutes (hhmm : String) : Option Nat :=
  match splitOnChar ':' hhmm.toList with
  | [h, m] =>
    match digitsToNat? h, digitsToNat? m with
    | some hh, some mm => some (60 * hh + mm)
    | _, _ => none
  | _ => none

/-- Python truthiness of an `Optional[str]`: `None` and `""` are falsy. -/
def truthy : Option String → Bool
  | none => false
  | some s => !(s == "")

/-- The sort key used at line 72 (`key=lambda a: to_minutes(a["Hora"])`),
meaningful whenever `a.Hora` parses. -/
def horaKey (a : RawSlot) : Nat :=
  (to_minutes a.Hora).getD 0

/-- The comparison the availability list is sorted by. -/
def horaLe (a b : RawSlot) : Prop :=
  horaKey a ≤ horaKey b

instance : DecidableRel horaLe := fun a b => Nat.decLe (horaKey a) (horaKey b)

instance : IsTotal RawSlot horaLe := ⟨fun a b => Nat.le_total (horaKey a) (horaKey b)⟩

instance : IsTrans RawSlot horaLe := ⟨fun _ _ _ => Nat.le_trans⟩

instance : IsRefl RawSlot horaLe := ⟨fun a => Nat.le_refl (horaKey a)⟩

/-- The `ValueError`s the selector can raise. -/
inductive PickError where
  | badTime (s : String)
  | unknownMode (mode : String)
deriving Repr, DecidableEq

/-- The list comprehension at line 94:
`[a for a in avails if to_minutes(a["Hora"]) >= t0]`, evaluating
`to_minutes` left to right and propagating its `ValueError`. -/
def candidates (t0 : Nat) : List RawSlot → Except PickError (List RawSlot)
  | [] => .ok []
  | a :: rest =>
    match to_minutes a.Hora with
    | none => .error (.badTime a.Hora)
    | some ta =>
      match candidates t0 rest with
      | .error e => .error e
      | .ok l => .ok (if t0 ≤ ta then a :: l else l)

/-- `pick_slot` (line 76).  Mirrors the source's branch order:
empty list → `None`; `mode == "earliest" or not target_time` → `avails[0]`;
`mode == "closest"` → first candidate at or after the target, `None` when no
candidate; any other mode → `raise ValueError`. -/
def pick_slot (avails : List RawSlot) (mode : String) (target_time : Option String) :
    Except PickError (Option RawSlot) :=
  if avails.isEmpty then .ok none
  else if mode == "earliest" || !(truthy target_time) then .ok avails.head?
  else if mode == "closest" then
    match to_minutes (target_time.getD "") with
    | none => .error (.badTime (target_time.getD ""))
    | some t0 =>
      match candidates t0 avails with
      | .error e => .error e
      | .ok c => if c.isEmpty then .ok none else .ok c.head?
  else .error (.unknownMode mode)

/-- The JSON payload built at lines 52–61 of `get_availability`. -/
structure AvailabilityPayload where
  Token : String
  FiltroFecha : String
  FiltroRecorrido : String
  FiltroJugadores : Int
  FiltroHora : String
deriving Repr, DecidableEq

/-- Payload construction (lines 52–61): `FiltroHora` starts as `"08:00"` and
is overwritten only when `filtro_hora` is truthy. -/
def availability_payload (token for_date recorrido : String) (players : Int)
    (filtro_hora : Option String) : AvailabilityPayload :=
  { Token := token
    FiltroFecha := for_date
    FiltroRecorrido := recorrido
    FiltroJugadores := players
    FiltroHora :=
      if truthy filtro_hora then filtro_hora.getD "" else "08:00" }

/-- The pure tail of `get_availability` (lines 71–73): capacity filter with
default capacity 4, then a stable sort by `to_minutes(a["Hora"])`.
`CPython`'s `list.sort` computes the key of every element (raising
`ValueError` on a malformed `Hora`) and sorts stably; insertion sort with a
non-strict comparison is stable. -/
def process_availability (data : List RawSlot) (players : Int) :
    Except PickError (List RawSlot) :=
  let avails := data.filter fun x => players ≤ x.NumeroJugadoresMaximo.getD 4
  if avails.all fun a => (to_minutes a.Hora).isSome then
    .ok (avails.insertionSort horaLe)
  else
    .error (.badTime "")

/-- Outcome of one availability query as seen by the loop: the record list a
successful call returns, or a transient `requests.RequestException`. -/
inductive QueryOutcome where
  | success (avails : List RawSlot)
  | failure
deriving Repr, DecidableEq

/-- One trace event: how long the query call took and what it produced. -/
structure QueryEvent where
  dur : ℚ
  outcome : QueryOutcome
deriving Repr, DecidableEq

/-- Observable actions of the loop: the instant a query starts, and the
instant and duration of each `time.sleep` (backoff sleep at line 173,
poll-interval sleep at line 178). -/
inductive LogEntry where
  | queryStart (t : ℚ) (outcome : QueryOutcome)
  | backoffSleep (t : ℚ) (d : ℚ)
  | pollSleep (t : ℚ) (d : ℚ)
deriving Repr, DecidableEq

/-- How a run of the loop ends. -/
inductive PollOutcome where
  | picked (slot : RawSlot) (avails : List RawSlot)
  | exhausted (lastAvails : List RawSlot) (endTime : ℚ)
  | fatal (e : PickError)
  | outOfTrace (time backoff : ℚ) (lastAvails : List RawSlot)
deriving Repr, DecidableEq

/-- The `while True` loop of `poll_for_slot` (lines 158–178), one trace event
per iteration.  `t` is the current wall-clock instant, `backoff` and `last`
the loop state.  A success stores the list, runs `pick_slot` and returns on a
pick; a transient failure updates
`backoff = min(2.0 if backoff == 0.0 else backoff * 2.0, 8.0)` and sleeps it;
then `if time.time() >= deadline: return None, last_avails`, else
`time.sleep(poll_every)` and repeat.  An exhausted trace ends the model run
with the live state (`outOfTrace`). -/
def pollRun (mode : String) (target_time : Option String) (poll_every deadline : ℚ) :
    List QueryEvent → ℚ → ℚ → List RawSlot → PollOutcome × List LogEntry
  | [], t, backoff, last => (.outOfTrace t backoff last, [])
  | ev :: rest, t, backoff, last =>
    let tq := t + ev.dur
    match ev.outcome with
    | .success avails =>
      match pick_slot avails mode target_time with
      | .error e => (.fatal e, [.queryStart t ev.outcome])
      | .ok (some p) => (.picked p avails, [.queryStart t ev.outcome])
      | .ok none =>
        if deadline ≤ tq then
          (.exhausted avails tq, [.queryStart t ev.outcome])
        else
          let r := pollRun mode target_time poll_every deadline rest (tq + poll_every) backoff avails
          (r.1, .queryStart t ev.outcome :: .pollSleep tq poll_every :: r.2)
    | .failure =>
      let b := min (if backoff = 0 then 2 else backoff * 2) 8
      let tb := tq + b
      if deadline ≤ tb then
        (.exhausted last tb, [.queryStart t ev.outcome, .backoffSleep tq b])
      else
        let r := pollRun mode target_time poll_every deadline rest (tb + poll_every) b last
        (r.1, .queryStart t ev.outcome :: .backoffSleep tq b :: .pollSleep tb poll_every :: r.2)

/-- `poll_for_slot` (line 136): `deadline = time.time() + max_wait_seconds`,
`backoff = 0.0`, `last_avails = []`, then the loop, starting at instant `t0`. -/
def poll_for_slot (mode : String) (target_time : Option String)
    (poll_every max_wait : ℚ) (t0 : ℚ) (trace : List QueryEvent) :
    PollOutcome × List LogEntry :=
  pollRun mode target_time poll_every (t0 + max_wait) trace t0 0 []

/-- The durations of the backoff sleeps of a log, in order. -/
def backoffSleeps : List LogEntry → List ℚ
  | [] => []
  | .queryStart _ _ :: rest => backoffSleeps rest
  | .backoffSleep _ d :: rest => d :: backoffSleeps rest
  | .pollSleep _ _ :: rest => backoffSleeps rest

/-- The record list of the most recent successful query of a log, starting
from `init` when the log holds no successful query. -/
def lastSuccessAvails (init : List RawSlot) : List LogEntry → List RawSlot
  | [] => init
  | .queryStart _ (.success av) :: rest => lastSuccessAvails av rest
  | .queryStart _ .failure :: rest => lastSuccessAvails init rest
  | .backoffSleep _ _ :: rest => lastSuccessAvails init rest
  | .pollSleep _ _ :: rest => lastSuccessAvails init rest

/-! Selector lemmas -/

/-- The first element satisfying `p` is the head of the filtered list. -/
theorem find?_eq_head?_filter {α : Type} (p : α → Bool) (l : List α) :
    l.find? p = (l.filter p).head? := by
  induction l with
  | nil => rfl
  | cons a l ih =>
    by_cases h : p a
    · rw [List.find?_cons_of_pos l h, List.filter_cons_of_pos h, List.head?_cons]
    · rw [List.find?_cons_of_neg l h, List.filter_cons_of_neg h, ih]

/-- `candidates` succeeds and computes a plain filter when every record's
time parses. -/
theorem candidates_eq_filter (t0 : Nat) (l : List RawSlot)
    (h : ∀ a ∈ l, (to_minutes a.Hora).isSome) :
    candidates t0 l = .ok (l.filter fun a => t0 ≤ horaKey a) := by
  induction l with
  | nil => rfl
  | cons a rest ih =>
    obtain ⟨ta, hta⟩ := Option.isSome_iff_exists.mp (h a (List.mem_cons_self a rest))
    rw [candidates, hta, ih fun x hx => h x (List.mem_cons_of_mem a hx)]
    have hk : horaKey a = ta := by simp [horaKey, hta]
    by_cases ht : t0 ≤ ta
    · simp [List.filter_cons, hk, ht]
    · simp [List.filter_cons, hk, ht]

/-- C6: under the `Earliest` policy (`mode = "earliest"`), selection
returns `None` iff the list is empty; on a non-empty list it returns the
first element, which is key-minimal when the list is sorted. -/
theorem pick_slot_earliest_correct (avails : List RawSlot) (tt : Option String)
    (hsorted : avails.Pairwise horaLe) :
    (pick_slot avails "earliest" tt = .ok none ↔ avails = []) ∧
    ∀ s, pick_slot avails "earliest" tt = .ok (some s) →
      avails.head? = some s ∧ s ∈ avails ∧ ∀ a ∈ avails, horaKey s ≤ horaKey a := by
  cases avails with
  | nil => simp [pick_slot]
  | cons a l =>
    constructor
    · simp [pick_slot]
    · intro s hs
      have hsa : a = s := by
        simpa [pick_slot] using hs
      subst hsa
      refine ⟨rfl, List.mem_cons_self a l, ?_⟩
      intro x hx
      rcases List.mem_cons.mp hx with h | h
      · exact h ▸ Nat.le_refl _
      · exact (List.pairwise_cons.mp hsorted).1 x h

/-- Witness for `pick_slot_earliest_correct` at a concrete sorted list. -/
theorem pick_slot_earliest_correct_witness :
    pick_slot [⟨"d", "09:30", "r", some 2⟩, ⟨"d", "10:00", "r", some 4⟩] "earliest" none
        = .ok (some ⟨"d", "09:30", "r", some 2⟩) ∧
    ([⟨"d", "09:30", "r", some 2⟩, ⟨"d", "10:00", "r", some 4⟩] : List RawSlot).head?
        = some ⟨"d", "09:30", "r", some 2⟩ := by
  refine ⟨by decide, ?_⟩
  exact ((pick_slot_earliest_correct
    [⟨"d", "09:30", "r", some 2⟩, ⟨"d", "10:00", "r", some 4⟩] none (by decide)).2
    ⟨"d", "09:30", "r", some 2⟩ (by decide)).1

/-- C2: under `ClosestAtOrAfter` (`mode = "closest"` with a supplied,
parsable target), selection on a sorted list returns `None` iff no element is
at or after the target; otherwise it returns the first element at or after
the target, which is key-minimal among those and never strictly before the
target. -/
theorem pick_slot_closest_correct (avails : List RawSlot) (tt : String) (t0 : Nat)
    (htt : to_minutes tt = some t0) (htt' : tt ≠ "")
    (hwf : ∀ a ∈ avails, (to_minutes a.Hora).isSome)
    (hsorted : avails.Pairwise horaLe) :
    (pick_slot avails "closest" (some tt) = .ok none ↔ ∀ a ∈ avails, horaKey a < t0) ∧
    ∀ s, pick_slot avails "closest" (some tt) = .ok (some s) →
      s ∈ avails ∧ t0 ≤ horaKey s ∧
      avails.find? (fun a => t0 ≤ horaKey a) = some s ∧
      ∀ a ∈ avails, t0 ≤ horaKey a → horaKey s ≤ horaKey a := by
  have htru : truthy (some tt) = true := by
    simp [truthy, htt']
  rcases avails with _ | ⟨a0, l0⟩
  · refine ⟨by simp [pick_slot], fun s hs => ?_⟩
    simp [pick_slot] at hs
  have h1 : (("closest" : String) == "earliest") = false := by decide
  have h2 : (("closest" : String) == "closest") = true := by decide
  have hps : pick_slot (a0 :: l0) "closest" (some tt) =
      if ((a0 :: l0).filter fun a => t0 ≤ horaKey a).isEmpty then .ok none
      else .ok ((a0 :: l0).filter fun a => t0 ≤ horaKey a).head? := by
    rw [pick_slot]
    rw [if_neg (by simp)]
    rw [if_neg (by simp [h1, htru])]
    rw [if_pos (by simp [h2])]
    simp only [Option.getD_some, htt]
    rw [candidates_eq_filter t0 _ hwf]
  rcases hF : (a0 :: l0).filter fun a => t0 ≤ horaKey a with _ | ⟨s0, rest⟩
  · rw [hF] at hps
    simp only [List.isEmpty_nil, if_true] at hps
    refine ⟨⟨fun _ a ha => ?_, fun _ => hps⟩, fun s hs => ?_⟩
    · rcases Nat.lt_or_ge (horaKey a) t0 with h | h
      · exact h
      · exfalso
        have hmem : a ∈ ((a0 :: l0).filter fun x => t0 ≤ horaKey x) :=
          List.mem_filter.mpr ⟨ha, by simpa using h⟩
        rw [hF] at hmem
        exact absurd hmem (List.not_mem_nil a)
    · rw [hps] at hs
      simp at hs
  · rw [hF] at hps
    simp only [List.isEmpty_cons, Bool.false_eq_true, if_false, List.head?_cons] at hps
    have hmemF : s0 ∈ ((a0 :: l0).filter fun a => t0 ≤ horaKey a) := by
      rw [hF]
      exact List.mem_cons_self s0 rest
    have hs0 := List.mem_filter.mp hmemF
    refine ⟨⟨fun h => ?_, fun hall => ?_⟩, fun s hs => ?_⟩
    · rw [hps] at h
      simp at h
    · exfalso
      have hlt := hall s0 hs0.1
      have hge : t0 ≤ horaKey s0 := by simpa using hs0.2
      omega
    · rw [hps] at hs
      have hss : s0 = s := by
        simpa using hs
      subst hss
      refine ⟨hs0.1, by simpa using hs0.2, ?_, ?_⟩
      · rw [find?_eq_head?_filter, hF, List.head?_cons]
      · intro a ha hta
        have haF : a ∈ ((a0 :: l0).filter fun x => t0 ≤ horaKey x) :=
          List.mem_filter.mpr ⟨ha, by simpa using hta⟩
        rw [hF] at haF
        have hpF : ((a0 :: l0).filter fun x => t0 ≤ horaKey x).Pairwise horaLe :=
          hsorted.sublist (List.filter_sublist _)
        rw [hF, List.pairwise_cons] at hpF
        rcases List.mem_cons.mp haF with h | h
        · exact h ▸ Nat.le_refl _
        · exact hpF.1 a h

/-- Witness for `pick_slot_closest_correct`: the spec's Scenario B. -/
theorem pick_slot_closest_correct_witness :
    pick_slot [⟨"d", "09:30", "r", some 2⟩, ⟨"d", "10:00", "r", some 4⟩]
        "closest" (some "09:45") = .ok (some ⟨"d", "10:00", "r", some 4⟩) ∧
    (585 : Nat) ≤ horaKey ⟨"d", "10:00", "r", some 4⟩ := by
  refine ⟨by decide, ?_⟩
  exact ((pick_slot_closest_correct
    [⟨"d", "09:30", "r", some 2⟩, ⟨"d", "10:00", "r", some 4⟩] "09:45" 585
    (by decide) (by decide) (by decide) (by decide)).2
    ⟨"d", "10:00", "r", some 4⟩ (by decide)).2.1

/-- C9: the availability payload always carries a `FiltroHora` field:
`"08:00"` when the caller passes no filter (`None` or the empty string), and
the caller's value exactly when one is supplied. -/
theorem availability_payload_filtro_hora (token fd rec : String) (players : Int) :
    (availability_payload token fd rec players none).FiltroHora = "08:00" ∧
    (availability_payload token fd rec players (some "")).FiltroHora = "08:00" ∧
    ∀ s : String, s ≠ "" →
      (availability_payload token fd rec players (some s)).FiltroHora = s := by
  refine ⟨rfl, rfl, fun s hs => ?_⟩
  simp [availability_payload, truthy, hs]

/-- Witness for `availability_payload_filtro_hora` at concrete arguments. -/
theorem availability_payload_filtro_hora_witness :
    (availability_payload "tok" "2026-10-12" "18 HOYOS" 2 none).FiltroHora = "08:00" ∧
    (availability_payload "tok" "2026-10-12" "18 HOYOS" 2 (some "07:30")).FiltroHora
      = "07:30" := by
  refine ⟨(availability_payload_filtro_hora "tok" "2026-10-12" "18 HOYOS" 2).1, ?_⟩
  exact (availability_payload_filtro_hora "tok" "2026-10-12" "18 HOYOS" 2).2.2 "07:30"
    (by decide)

/-! Stability of the availability sort -/

/-- Inserting an element that satisfies `q` — and is `r`-below every
`q`-element — prepends it to the `q`-filtered view. -/
theorem filter_orderedInsert_pos {α : Type} (r : α → α → Prop) [DecidableRel r]
    (q : α → Bool) (a : α) (l : List α) (ha : q a = true)
    (hq : ∀ b, q b = true → r a b) :
    (l.orderedInsert r a).filter q = a :: l.filter q := by
  induction l with
  | nil => simp [List.orderedInsert, ha]
  | cons b l ih =>
    rw [List.orderedInsert]
    by_cases hr : r a b
    · rw [if_pos hr, List.filter_cons_of_pos ha]
    · rw [if_neg hr]
      have hqb : ¬ (q b = true) := fun h => hr (hq b h)
      rw [List.filter_cons_of_neg hqb, ih, List.filter_cons_of_neg hqb]

/-- Inserting an element that fails `q` leaves the `q`-filtered view
unchanged. -/
theorem filter_orderedInsert_neg {α : Type} (r : α → α → Prop) [DecidableRel r]
    (q : α → Bool) (a : α) (l : List α) (ha : q a = false) :
    (l.orderedInsert r a).filter q = l.filter q := by
  induction l with
  | nil => simp [List.orderedInsert, ha]
  | cons b l ih =>
    rw [List.orderedInsert]
    by_cases hr : r a b
    · rw [if_pos hr, List.filter_cons_of_neg (by simp [ha])]
    · rw [if_neg hr]
      by_cases hb : q b
      · rw [List.filter_cons_of_pos hb, List.filter_cons_of_pos hb, ih]
      · simp only [Bool.not_eq_true] at hb
        rw [List.filter_cons_of_neg (by simp [hb]), List.filter_cons_of_neg (by simp [hb]),
          ih]

/-- Insertion sort is stable: the subsequence of elements of one key class is
untouched (`q` selects a key class: any two `q`-elements are `r`-related both
ways). -/
theorem filter_insertionSort {α : Type} (r : α → α → Prop) [DecidableRel r]
    (q : α → Bool) (hq : ∀ a b, q a = true → q b = true → r a b) (l : List α) :
    (l.insertionSort r).filter q = l.filter q := by
  induction l with
  | nil => rfl
  | cons a l ih =>
    rw [List.insertionSort]
    by_cases ha : q a
    · rw [filter_orderedInsert_pos r q a _ ha fun b hb => hq a b ha hb, ih,
        List.filter_cons_of_pos ha]
    · simp only [Bool.not_eq_true] at ha
      rw [filter_orderedInsert_neg r q a _ ha, ih, List.filter_cons_of_neg (by simp [ha])]

/-- C3: when every record's time parses, `get_availability`'s
post-processing succeeds and yields a list in which every element's capacity
(defaulting to 4 when the field is absent) is at least the requested party
size, sorted non-decreasing by parsed time of day, and stable: each
time-of-day class keeps exactly the order the response gave it. -/
theorem process_availability_correct (data : List RawSlot) (players : Int)
    (hwf : ∀ a ∈ data, (to_minutes a.Hora).isSome) :
    ∃ l, process_availability data players = .ok l ∧
      (∀ e ∈ l, players ≤ e.NumeroJugadoresMaximo.getD 4) ∧
      l.Pairwise horaLe ∧
      ∀ v : Nat, l.filter (fun a => horaKey a == v) =
        (data.filter fun x => players ≤ x.NumeroJugadoresMaximo.getD 4).filter
          fun a => horaKey a == v := by
  refine ⟨(data.filter fun x => players ≤ x.NumeroJugadoresMaximo.getD 4).insertionSort
    horaLe, ?_, ?_, ?_, ?_⟩
  · have hall : ((data.filter fun x => players ≤ x.NumeroJugadoresMaximo.getD 4).all
        fun a => (to_minutes a.Hora).isSome) = true := by
      rw [List.all_eq_true]
      intro a ha
      exact hwf a (List.mem_filter.mp ha).1
    simp only [process_availability]
    rw [if_pos hall]
  · intro e he
    have hmem : e ∈ data.filter fun x => players ≤ x.NumeroJugadoresMaximo.getD 4 :=
      (List.mem_insertionSort horaLe).mp he
    simpa using (List.mem_filter.mp hmem).2
  · exact List.sorted_insertionSort horaLe _
  · intro v
    refine filter_insertionSort horaLe (fun a => horaKey a == v) ?_ _
    intro a b ha hb
    have ha' : horaKey a = v := by simpa using ha
    have hb' : horaKey b = v := by simpa using hb
    unfold horaLe
    omega

/-- Witness for `process_availability_correct`: the spec's Scenario A data. -/
theorem process_availability_correct_witness :
    ∃ l, process_availability
        [⟨"d", "10:00", "r", some 4⟩, ⟨"d", "09:30", "r", some 2⟩] 2 = .ok l ∧
      (∀ e ∈ l, (2 : Int) ≤ e.NumeroJugadoresMaximo.getD 4) ∧
      l.Pairwise horaLe ∧
      ∀ v : Nat, l.filter (fun a => horaKey a == v) =
        (([⟨"d", "10:00", "r", some 4⟩,
           ⟨"d", "09:30", "r", some 2⟩] : List RawSlot).filter
          fun x => (2 : Int) ≤ x.NumeroJugadoresMaximo.getD 4).filter
            fun a => horaKey a == v :=
  process_availability_correct
    [⟨"d", "10:00", "r", some 4⟩, ⟨"d", "09:30", "r", some 2⟩] 2 (by decide)

/-- C10: with `target_time = None`, mode `"closest"` — and indeed any
mode — silently degrades to returning the first element of a non-empty list;
an unrecognized mode raises `ValueError` exactly when the target time is
truthy and the list is non-empty. -/
theorem pick_slot_none_target_degrades (avails : List RawSlot) (h : avails ≠ [])
    (m : String) (hm1 : m ≠ "earliest") (hm2 : m ≠ "closest") :
    pick_slot avails "closest" none = .ok avails.head? ∧
    pick_slot avails m none = .ok avails.head? ∧
    ∀ (l : List RawSlot) (tt : Option String),
      (∃ e, pick_slot l m tt = .error e) ↔ (truthy tt = true ∧ l ≠ []) := by
  have hne : avails.isEmpty = false := by
    cases avails with
    | nil => exact absurd rfl h
    | cons a l => rfl
  refine ⟨by simp [pick_slot, hne, truthy], by simp [pick_slot, hne, truthy], ?_⟩
  intro l tt
  constructor
  · rintro ⟨e, he⟩
    by_cases hl : l.isEmpty
    · simp [pick_slot, hl] at he
    · by_cases htt : truthy tt
      · exact ⟨htt, fun hnil => by simp [hnil] at hl⟩
      · simp only [Bool.not_eq_true] at htt
        simp [pick_slot, hl, htt] at he
  · rintro ⟨htt, hl⟩
    have hle : l.isEmpty = false := by
      cases l with
      | nil => exact absurd rfl hl
      | cons a t => rfl
    refine ⟨.unknownMode m, ?_⟩
    simp [pick_slot, hle, htt, hm1, hm2]

/-- Witness for `pick_slot_none_target_degrades` at a concrete list and
mode string. -/
theorem pick_slot_none_target_degrades_witness :
    pick_slot [⟨"d", "10:00", "r", none⟩] "closest" none
        = .ok (([⟨"d", "10:00", "r", none⟩] : List RawSlot).head?) ∧
    (∃ e, pick_slot [⟨"d", "10:00", "r", none⟩] "weird" (some "09:00") = .error e) := by
  have h := pick_slot_none_target_degrades [⟨"d", "10:00", "r", none⟩]
    (by decide) "weird" (by decide) (by decide)
  exact ⟨h.1, (h.2.2 [⟨"d", "10:00", "r", none⟩] (some "09:00")).mpr ⟨rfl, by decide⟩⟩

/-! Acquisition-loop theorems -/

/-- C1 counterexample: a transient failure, a successful empty query, a
second transient failure: the second backoff sleep is 4, not 2 — the success
did not reset the backoff. -/
theorem success_does_not_reset_backoff_cex :
    backoffSleeps (poll_for_slot "earliest" none 1 100 0
      [⟨0, .failure⟩, ⟨0, .success []⟩, ⟨0, .failure⟩]).2 = [2, 4] := by
  norm_num [poll_for_slot, pollRun, pick_slot, backoffSleeps, min_def]

/-- C1 amended: a successful query leaves the backoff value unchanged
(the loop state it hands on still carries `b`, not zero), and a transient
failure from backoff state `b` sleeps `min(2 if b == 0 else 2*b, 8)` — so
the first failure after a success sleeps 2 only when no failure preceded the
success. -/
theorem backoff_not_reset_on_success (mode : String) (tt : Option String)
    (pe dl d d2 t b : ℚ) (av last : List RawSlot)
    (hpick : pick_slot av mode tt = .ok none) (hck : ¬ dl ≤ t + d) :
    (pollRun mode tt pe dl [⟨d, .success av⟩] t b last).1
        = .outOfTrace (t + d + pe) b av ∧
    backoffSleeps (pollRun mode tt pe dl [⟨d2, .failure⟩] t b last).2
        = [min (if b = 0 then 2 else b * 2) 8] := by
  constructor
  · simp only [pollRun, hpick]
    rw [if_neg hck]
  · simp only [pollRun]
    by_cases h : dl ≤ t + d2 + min (if b = 0 then 2 else b * 2) 8
    · rw [if_pos h]
      simp [backoffSleeps]
    · rw [if_neg h]
      simp [backoffSleeps, pollRun]

/-- Witness for `backoff_not_reset_on_success` at backoff state 4. -/
theorem backoff_not_reset_on_success_witness :
    (pollRun "earliest" none 1 100 [⟨0, .success []⟩] 0 4 []).1
        = .outOfTrace (0 + 0 + 1) 4 [] ∧
    backoffSleeps (pollRun "earliest" none 1 100 [⟨0, .failure⟩] 0 4 []).2
        = [min (if (4 : ℚ) = 0 then 2 else 4 * 2) 8] :=
  backoff_not_reset_on_success "earliest" none 1 100 0 0 0 4 [] []
    (by decide) (by norm_num)

/-- The backoff value after `k` transient failures of a run that started at
zero: `0, 2, 4, 8, 8, …` — i.e. `min (2^k) 8` once `k ≥ 1`. -/
def backoffOfCount (k : Nat) : ℚ :=
  if k = 0 then 0 else min (2 ^ k) 8

/-- One failure step of line 171 advances `backoffOfCount`. -/
theorem backoffOfCount_update (k : Nat) :
    min (if backoffOfCount k = 0 then 2 else backoffOfCount k * 2) 8
      = backoffOfCount (k + 1) := by
  rcases Nat.eq_zero_or_pos k with hk | hk
  · subst hk
    norm_num [backoffOfCount]
  · have hkz : k ≠ 0 := Nat.pos_iff_ne_zero.mp hk
    have h2 : (2 : ℚ) ≤ 2 ^ k := by
      calc (2 : ℚ) = 2 ^ 1 := (pow_one 2).symm
      _ ≤ 2 ^ k := pow_le_pow_right₀ (by norm_num) hk
    rw [backoffOfCount, if_neg hkz, backoffOfCount, if_neg (Nat.succ_ne_zero k)]
    have hne : min ((2 : ℚ) ^ k) 8 ≠ 0 := by
      have hge : (2 : ℚ) ≤ min (2 ^ k) 8 := le_min h2 (by norm_num)
      intro h
      rw [h] at hge
      norm_num at hge
    rw [if_neg hne]
    rcases le_total ((2 : ℚ) ^ k) 8 with h | h
    · rw [min_eq_left h, pow_succ]
    · rw [min_eq_right h]
      have h8 : (8 : ℚ) ≤ 2 ^ (k + 1) := by
        calc (8 : ℚ) ≤ 2 ^ k := h
        _ ≤ 2 ^ (k + 1) := by
          rw [pow_succ]
          nlinarith [pow_pos (show (0 : ℚ) < 2 by norm_num) k]
      rw [min_eq_right h8]
      norm_num

/-- Every backoff sleep of a run entered with backoff state `backoffOfCount k`
has the duration the doubling-with-cap recurrence dictates, successes
notwithstanding: the `i`-th such sleep (0-based) lasts
`backoffOfCount (k + i + 1)`. -/
theorem pollRun_backoff_progression (mode : String) (tt : Option String) (pe dl : ℚ) :
    ∀ (trace : List QueryEvent) (t : ℚ) (k : Nat) (last : List RawSlot) (i : Nat),
      i < (backoffSleeps
        (pollRun mode tt pe dl trace t (backoffOfCount k) last).2).length →
      (backoffSleeps (pollRun mode tt pe dl trace t (backoffOfCount k) last).2)[i]?
        = some (backoffOfCount (k + i + 1)) := by
  intro trace
  induction trace with
  | nil =>
    intro t k last i h
    simp [pollRun, backoffSleeps] at h
  | cons ev rest ih =>
    intro t k last i h
    obtain ⟨dv, o⟩ := ev
    cases o with
    | success av =>
      rcases hp : pick_slot av mode tt with e | op
      · simp only [pollRun, hp] at h ⊢
        simp [backoffSleeps] at h
      · rcases op with _ | p
        · by_cases hd : dl ≤ t + dv
          · simp only [pollRun, hp, if_pos hd] at h ⊢
            simp [backoffSleeps] at h
          · simp only [pollRun, hp, if_neg hd] at h ⊢
            simp only [backoffSleeps] at h ⊢
            exact ih (t + dv + pe) k av i h
        · simp only [pollRun, hp] at h ⊢
          simp [backoffSleeps] at h
    | failure =>
      by_cases hd : dl ≤ t + dv + min
          (if backoffOfCount k = 0 then 2 else backoffOfCount k * 2) 8
      · simp only [pollRun, if_pos hd] at h ⊢
        simp only [backoffSleeps] at h ⊢
        rcases i with _ | j
        · rw [List.getElem?_cons_zero, backoffOfCount_update k]
        · simp at h
      · simp only [pollRun, if_neg hd] at h ⊢
        simp only [backoffSleeps] at h ⊢
        rcases i with _ | j
        · rw [List.getElem?_cons_zero, backoffOfCount_update k]
        · rw [List.getElem?_cons_succ]
          rw [backoffOfCount_update k] at h ⊢
          have hih := ih (t + dv + backoffOfCount (k + 1) + pe) (k + 1) last j
            (by simpa using h)
          rw [hih]
          congr 2
          omega

/-- C7 counterexample: the third event starts a new run of consecutive
transient failures after a success; its (first and only) sleep is 4, not the
base 2 the claim requires for the first failure of a run. -/
theorem backoff_run_restart_cex :
    backoffSleeps (poll_for_slot "earliest" none 2 100 0
      [⟨1, .failure⟩, ⟨0, .success []⟩, ⟨0, .failure⟩]).2 = [2, 4] := by
  norm_num [poll_for_slot, pollRun, pick_slot, backoffSleeps, min_def]

/-- C7 amended: across the whole execution — consecutive or not, with
successes interleaved — the `i`-th transient-failure sleep (0-based) lasts
`min(2^(i+1), 8)`: the sequence 2, 4, 8, 8, … is global because a success
never resets the backoff value. -/
theorem backoff_sleeps_doubling_capped (mode : String) (tt : Option String)
    (pe mw t0 : ℚ) (trace : List QueryEvent) (i : Nat)
    (h : i < (backoffSleeps (poll_for_slot mode tt pe mw t0 trace).2).length) :
    (backoffSleeps (poll_for_slot mode tt pe mw t0 trace).2)[i]?
      = some (min (2 ^ (i + 1)) 8) := by
  have h0 : backoffOfCount 0 = 0 := rfl
  have hrw : poll_for_slot mode tt pe mw t0 trace
      = pollRun mode tt pe (t0 + mw) trace t0 (backoffOfCount 0) [] := by
    rw [poll_for_slot, h0]
  have hmain := pollRun_backoff_progression mode tt pe (t0 + mw) trace t0 0 [] i
    (by rw [← hrw]; exact h)
  rw [hrw, hmain, backoffOfCount, if_neg (by omega : ¬ (0 + i + 1 = 0))]
  congr 3
  omega

/-- Witness for `backoff_sleeps_doubling_capped`: the first backoff sleep of
a concrete failing run lasts `min (2^1) 8 = 2`. -/
theorem backoff_sleeps_doubling_capped_witness :
    (backoffSleeps (poll_for_slot "earliest" none 1 100 0 [⟨0, .failure⟩]).2)[0]?
      = some (min (2 ^ (0 + 1)) 8) :=
  backoff_sleeps_doubling_capped "earliest" none 1 100 0 [⟨0, .failure⟩] 0
    (by norm_num [poll_for_slot, pollRun, backoffSleeps, min_def])

/-- C8: a transient failure leaves `lastObservedSlotSet` alone: an
iteration whose query fails either exhausts the deadline returning the
incoming `last` untouched or recurses with the same `last`; and a run made
solely of transient failures can only ever report the initial value. -/
theorem failure_frame_lastAvails (mode : String) (tt : Option String)
    (pe dl d t b : ℚ) (rest : List QueryEvent) (last : List RawSlot) :
    ((pollRun mode tt pe dl (⟨d, .failure⟩ :: rest) t b last).1 =
      if dl ≤ t + d + min (if b = 0 then 2 else b * 2) 8 then
        .exhausted last (t + d + min (if b = 0 then 2 else b * 2) 8)
      else (pollRun mode tt pe dl rest
        (t + d + min (if b = 0 then 2 else b * 2) 8 + pe)
        (min (if b = 0 then 2 else b * 2) 8) last).1) ∧
    ∀ (trace : List QueryEvent) (t2 b2 : ℚ),
      (∀ ev ∈ trace, ev.outcome = .failure) →
      (∀ la te, (pollRun mode tt pe dl trace t2 b2 last).1 = .exhausted la te →
        la = last) ∧
      (∀ t3 b3 la, (pollRun mode tt pe dl trace t2 b2 last).1 = .outOfTrace t3 b3 la →
        la = last) := by
  constructor
  · simp only [pollRun]
    by_cases h : dl ≤ t + d + min (if b = 0 then 2 else b * 2) 8
    · rw [if_pos h, if_pos h]
    · rw [if_neg h, if_neg h]
  · intro trace
    induction trace with
    | nil =>
      intro t2 b2 _
      constructor
      · intro la te hla
        simp [pollRun] at hla
      · intro t3 b3 la hla
        simp only [pollRun, PollOutcome.outOfTrace.injEq] at hla
        exact hla.2.2.symm
    | cons ev rest2 ih =>
      intro t2 b2 hfail
      have hev : ev.outcome = .failure := hfail ev (List.mem_cons_self ev rest2)
      obtain ⟨dv, o⟩ := ev
      simp only at hev
      subst hev
      have hrest : ∀ ev ∈ rest2, ev.outcome = QueryOutcome.failure :=
        fun e he => hfail e (List.mem_cons_of_mem _ he)
      by_cases h : dl ≤ t2 + dv + min (if b2 = 0 then 2 else b2 * 2) 8
      · constructor
        · intro la te hla
          simp only [pollRun, if_pos h, PollOutcome.exhausted.injEq] at hla
          exact hla.1.symm
        · intro t3 b3 la hla
          simp only [pollRun, if_pos h] at hla
          exact PollOutcome.noConfusion hla
      · constructor
        · intro la te hla
          simp only [pollRun, if_neg h] at hla
          exact (ih _ _ hrest).1 la te hla
        · intro t3 b3 la hla
          simp only [pollRun, if_neg h] at hla
          exact (ih _ _ hrest).2 t3 b3 la hla

/-- Witness for `failure_frame_lastAvails` on an all-failure trace. -/
theorem failure_frame_lastAvails_witness :
    (pollRun "earliest" none 1 100 [⟨0, .failure⟩, ⟨0, .failure⟩] 0 0
        [⟨"d", "10:00", "r", none⟩]).1
      = .outOfTrace 8 4 [⟨"d", "10:00", "r", none⟩] ∧
    [⟨"d", "10:00", "r", none⟩] = ([⟨"d", "10:00", "r", none⟩] : List RawSlot) := by
  have hrun : (pollRun "earliest" none 1 100 [⟨0, .failure⟩, ⟨0, .failure⟩] 0 0
      [⟨"d", "10:00", "r", none⟩]).1 = .outOfTrace 8 4 [⟨"d", "10:00", "r", none⟩] := by
    norm_num [pollRun, min_def]
  refine ⟨hrun, ?_⟩
  have h := (failure_frame_lastAvails "earliest" none 1 100 0 0 0 []
    [⟨"d", "10:00", "r", none⟩]).2 [⟨0, .failure⟩, ⟨0, .failure⟩] 0 0
    (by decide)
  exact (h.2 8 4 _ hrun).symm

/-- For a trace in which every query either fails transiently or succeeds
with no selection, the loop never picks a slot, never raises, and any
deadline exhaustion reports exactly the records of the most recent
successful query — the initial `last` if none succeeded. -/
theorem pollRun_no_pick_lastSuccess (mode : String) (tt : Option String) (pe dl : ℚ) :
    ∀ (trace : List QueryEvent) (t b : ℚ) (last : List RawSlot),
      (∀ ev ∈ trace, ev.outcome = .failure ∨
        ∃ av, ev.outcome = .success av ∧ pick_slot av mode tt = .ok none) →
      (∀ p av, (pollRun mode tt pe dl trace t b last).1 ≠ .picked p av) ∧
      (∀ e, (pollRun mode tt pe dl trace t b last).1 ≠ .fatal e) ∧
      (∀ la te, (pollRun mode tt pe dl trace t b last).1 = .exhausted la te →
        la = lastSuccessAvails last (pollRun mode tt pe dl trace t b last).2) := by
  intro trace
  induction trace with
  | nil =>
    intro t b last _
    refine ⟨by simp [pollRun], by simp [pollRun], ?_⟩
    intro la te hla
    simp [pollRun] at hla
  | cons ev rest ih =>
    intro t b last H
    have hev := H ev (List.mem_cons_self ev rest)
    have hrest : ∀ e ∈ rest, e.outcome = QueryOutcome.failure ∨
        ∃ av, e.outcome = QueryOutcome.success av ∧ pick_slot av mode tt = .ok none :=
      fun e he => H e (List.mem_cons_of_mem _ he)
    obtain ⟨dv, o⟩ := ev
    cases o with
    | success av =>
      have hp : pick_slot av mode tt = .ok none := by
        rcases hev with h | ⟨av2, h2, hp2⟩
        · simp at h
        · simp only [QueryOutcome.success.injEq] at h2
          rw [h2]
          exact hp2
      by_cases hd : dl ≤ t + dv
      · refine ⟨?_, ?_, ?_⟩
        · intro p av2
          simp [pollRun, hp, if_pos hd]
        · intro e
          simp [pollRun, hp, if_pos hd]
        · intro la te hla
          simp only [pollRun, hp, if_pos hd, PollOutcome.exhausted.injEq] at hla
          simp only [pollRun, hp, if_pos hd]
          rw [lastSuccessAvails, lastSuccessAvails]
          exact hla.1.symm
      · have hi := ih (t + dv + pe) b av hrest
        refine ⟨?_, ?_, ?_⟩
        · intro p av2
          simp only [pollRun, hp, if_neg hd]
          exact hi.1 p av2
        · intro e
          simp only [pollRun, hp, if_neg hd]
          exact hi.2.1 e
        · intro la te hla
          simp only [pollRun, hp, if_neg hd] at hla ⊢
          rw [lastSuccessAvails, lastSuccessAvails]
          exact hi.2.2 la te hla
    | failure =>
      by_cases hd : dl ≤ t + dv + min (if b = 0 then 2 else b * 2) 8
      · refine ⟨?_, ?_, ?_⟩
        · intro p av2
          simp [pollRun, if_pos hd]
        · intro e
          simp [pollRun, if_pos hd]
        · intro la te hla
          simp only [pollRun, if_pos hd, PollOutcome.exhausted.injEq] at hla
          simp only [pollRun, if_pos hd]
          rw [lastSuccessAvails, lastSuccessAvails, lastSuccessAvails]
          exact hla.1.symm
      · have hi := ih (t + dv + min (if b = 0 then 2 else b * 2) 8 + pe)
          (min (if b = 0 then 2 else b * 2) 8) last hrest
        refine ⟨?_, ?_, ?_⟩
        · intro p av2
          simp only [pollRun, if_neg hd]
          exact hi.1 p av2
        · intro e
          simp only [pollRun, if_neg hd]
          exact hi.2.1 e
        · intro la te hla
          simp only [pollRun, if_neg hd] at hla ⊢
          rw [lastSuccessAvails, lastSuccessAvails, lastSuccessAvails]
          exact hi.2.2 la te hla

/-- C5: when every query in the trace fails transiently or succeeds with
no selection, `poll_for_slot` cannot return a pick and cannot raise; if it
exhausts the deadline it returns `(None, S)` where `S` is the most recent
successfully observed record list — the empty list when no query ever
succeeded. -/
theorem deadline_exhaustion_normal (mode : String) (tt : Option String)
    (pe mw t0 : ℚ) (trace : List QueryEvent)
    (H : ∀ ev ∈ trace, ev.outcome = .failure ∨
      ∃ av, ev.outcome = .success av ∧ pick_slot av mode tt = .ok none) :
    (∀ p av, (poll_for_slot mode tt pe mw t0 trace).1 ≠ .picked p av) ∧
    (∀ e, (poll_for_slot mode tt pe mw t0 trace).1 ≠ .fatal e) ∧
    (∀ la te, (poll_for_slot mode tt pe mw t0 trace).1 = .exhausted la te →
      la = lastSuccessAvails [] (poll_for_slot mode tt pe mw t0 trace).2) :=
  pollRun_no_pick_lastSuccess mode tt pe (t0 + mw) trace t0 0 [] H

/-- Witness for `deadline_exhaustion_normal`: a failure, a successful query
with no candidate at or after 23:00, then a failure that exhausts the
deadline; the result carries the records of the one successful query. -/
theorem deadline_exhaustion_normal_witness :
    (poll_for_slot "closest" (some "23:00") 1 6 0
        [⟨0, .failure⟩, ⟨0, .success [⟨"d", "08:00", "r", none⟩]⟩, ⟨0, .failure⟩]).1
      = .exhausted [⟨"d", "08:00", "r", none⟩] 8 ∧
    [⟨"d", "08:00", "r", none⟩] = lastSuccessAvails []
      (poll_for_slot "closest" (some "23:00") 1 6 0
        [⟨0, .failure⟩, ⟨0, .success [⟨"d", "08:00", "r", none⟩]⟩, ⟨0, .failure⟩]).2 := by
  have hrun : (poll_for_slot "closest" (some "23:00") 1 6 0
      [⟨0, .failure⟩, ⟨0, .success [⟨"d", "08:00", "r", none⟩]⟩, ⟨0, .failure⟩]).1
      = .exhausted [⟨"d", "08:00", "r", none⟩] 8 := by
    have hpick : pick_slot [⟨"d", "08:00", "r", none⟩] "closest" (some "23:00")
        = .ok none := by decide
    norm_num [poll_for_slot, pollRun, hpick, min_def]
  refine ⟨hrun, ?_⟩
  exact (deadline_exhaustion_normal "closest" (some "23:00") 1 6 0
    [⟨0, .failure⟩, ⟨0, .success [⟨"d", "08:00", "r", none⟩]⟩, ⟨0, .failure⟩]
    (by
      intro ev hev
      rcases List.mem_cons.mp hev with rfl | hev2
      · exact Or.inl rfl
      rcases List.mem_cons.mp hev2 with rfl | hev3
      · exact Or.inr ⟨[⟨"d", "08:00", "r", none⟩], rfl, by decide⟩
      rcases List.mem_cons.mp hev3 with rfl | hev4
      · exact Or.inl rfl
      · exact absurd hev4 (List.not_mem_nil _))).2.2
    [⟨"d", "08:00", "r", none⟩] 8 hrun

/-- C4 counterexample: with `maxWait = 5` and `pollInterval = 10`, the
deadline check passes at instant 0, the poll sleep runs to instant 10, and a
new query starts at instant `10 ≥ deadline = 0 + 5`: the loop does start a
query past the deadline. -/
theorem query_start_past_deadline_cex :
    (poll_for_slot "earliest" none 10 5 0
        [⟨0, .success []⟩, ⟨0, .success []⟩]).2
      = [.queryStart 0 (.success []), .pollSleep 0 10,
         .queryStart 10 (.success [])] ∧
    (0 : ℚ) + 5 ≤ 10 := by
  constructor
  · norm_num [poll_for_slot, pollRun, pick_slot]
  · norm_num

/-- Every poll-interval sleep starts strictly before the deadline, and a run
that exhausts the deadline ends within one poll interval plus one query
duration plus the 8-unit backoff cap past it. -/
theorem pollRun_deadline_bounds (mode : String) (tt : Option String) (pe dl D : ℚ) :
    ∀ (trace : List QueryEvent) (t b : ℚ) (last : List RawSlot),
      (∀ ev ∈ trace, ev.dur ≤ D) → t ≤ dl + pe →
      (∀ s d, LogEntry.pollSleep s d ∈ (pollRun mode tt pe dl trace t b last).2 →
        s < dl) ∧
      (∀ la te, (pollRun mode tt pe dl trace t b last).1 = .exhausted la te →
        te ≤ dl + pe + D + 8) := by
  intro trace
  induction trace with
  | nil =>
    intro t b last _ _
    refine ⟨?_, ?_⟩
    · intro s d hmem
      simp [pollRun] at hmem
    · intro la te hla
      simp [pollRun] at hla
  | cons ev rest ih =>
    intro t b last hD ht
    have hdv : ev.dur ≤ D := hD ev (List.mem_cons_self ev rest)
    have hrest : ∀ e ∈ rest, e.dur ≤ D := fun e he => hD e (List.mem_cons_of_mem _ he)
    obtain ⟨dv, o⟩ := ev
    simp only at hdv
    have htq : t + dv ≤ dl + pe + D := by linarith
    cases o with
    | success av =>
      rcases hp : pick_slot av mode tt with e | op
      · refine ⟨?_, ?_⟩
        · intro s d hmem
          simp [pollRun, hp] at hmem
        · intro la te hla
          simp only [pollRun, hp] at hla
          exact PollOutcome.noConfusion hla
      · rcases op with _ | p
        · by_cases hd : dl ≤ t + dv
          · refine ⟨?_, ?_⟩
            · intro s d hmem
              simp [pollRun, hp, if_pos hd] at hmem
            · intro la te hla
              simp only [pollRun, hp, if_pos hd, PollOutcome.exhausted.injEq] at hla
              rw [← hla.2]
              linarith
          · have hlt : t + dv < dl := lt_of_not_ge hd
            have hi := ih (t + dv + pe) b av hrest (by linarith)
            refine ⟨?_, ?_⟩
            · intro s d hmem
              simp only [pollRun, hp, if_neg hd, List.mem_cons] at hmem
              rcases hmem with h1 | h1 | h1
              · exact absurd h1 (by simp)
              · rw [LogEntry.pollSleep.injEq] at h1
                rw [h1.1]
                exact hlt
              · exact hi.1 s d h1
            · intro la te hla
              simp only [pollRun, hp, if_neg hd] at hla
              exact hi.2 la te hla
        · refine ⟨?_, ?_⟩
          · intro s d hmem
            simp [pollRun, hp] at hmem
          · intro la te hla
            simp only [pollRun, hp] at hla
            exact PollOutcome.noConfusion hla
    | failure =>
      have hb8 : min (if b = 0 then 2 else b * 2) 8 ≤ 8 :=
        min_le_right _ _
      by_cases hd : dl ≤ t + dv + min (if b = 0 then 2 else b * 2) 8
      · refine ⟨?_, ?_⟩
        · intro s d hmem
          simp [pollRun, if_pos hd] at hmem
        · intro la te hla
          simp only [pollRun, if_pos hd, PollOutcome.exhausted.injEq] at hla
          rw [← hla.2]
          linarith
      · have hlt : t + dv + min (if b = 0 then 2 else b * 2) 8 < dl := lt_of_not_ge hd
        have hi := ih (t + dv + min (if b = 0 then 2 else b * 2) 8 + pe)
          (min (if b = 0 then 2 else b * 2) 8) last hrest (by linarith)
        refine ⟨?_, ?_⟩
        · intro s d hmem
          simp only [pollRun, if_neg hd, List.mem_cons] at hmem
          rcases hmem with h1 | h1 | h1 | h1
          · exact absurd h1 (by simp)
          · exact absurd h1 (by simp)
          · rw [LogEntry.pollSleep.injEq] at h1
            rw [h1.1]
            exact hlt
          · exact hi.1 s d h1
        · intro la te hla
          simp only [pollRun, if_neg hd] at hla
          exact hi.2 la te hla

/-- C4 amended: the deadline check sits after the (unchecked) backoff
sleep and before the poll-interval sleep.  Hence: every poll-interval sleep
begins strictly before the deadline, but a backoff sleep may begin past it
and one further query may start up to `pollInterval` past it; for a call
that never finds a slot the end instant is bounded by
`deadline + pollInterval + (max query duration) + 8` — i.e. the span is
`maxWait` plus one poll interval, one in-flight query and one capped backoff
sleep. -/
theorem deadline_respect_amended (mode : String) (tt : Option String)
    (pe mw t0 D : ℚ) (trace : List QueryEvent)
    (hpe : 0 ≤ pe) (hmw : 0 ≤ mw) (hD : ∀ ev ∈ trace, ev.dur ≤ D) :
    (∀ s d, LogEntry.pollSleep s d ∈ (poll_for_slot mode tt pe mw t0 trace).2 →
      s < t0 + mw) ∧
    (∀ la te, (poll_for_slot mode tt pe mw t0 trace).1 = .exhausted la te →
      te ≤ t0 + mw + pe + D + 8) :=
  pollRun_deadline_bounds mode tt pe (t0 + mw) D trace t0 0 [] hD (by linarith)

/-- Witness for `deadline_respect_amended` on a concrete exhausting run. -/
theorem deadline_respect_amended_witness :
    (poll_for_slot "earliest" none 1 1 0 [⟨0, .failure⟩]).1
      = .exhausted [] 2 ∧ (2 : ℚ) ≤ 0 + 1 + 1 + 0 + 8 := by
  have hrun : (poll_for_slot "earliest" none 1 1 0 [⟨0, .failure⟩]).1
      = .exhausted [] 2 := by
    norm_num [poll_for_slot, pollRun, min_def]
  refine ⟨hrun, ?_⟩
  exact (deadline_respect_amended "earliest" none 1 1 0 0 [⟨0, .failure⟩]
    (by norm_num) (by norm_num)
    (by intro ev hev; rcases List.mem_singleton.mp hev with rfl; norm_num)).2 [] 2 hrun

end TeeTime
